import Mathlib

/-!
Verification of the dclean scanner/cleanup core against its specification.

The JavaScript source is embedded shallowly:

* POSIX path strings are Lean `String`s; `path.resolve`, `path.dirname`,
  `path.basename` and `String.prototype.startsWith` / `split` / `endsWith`
  are implemented on `String.data` (lists of characters), following Node's
  POSIX implementations.
* The filesystem and the trash primitive are oracles: directory trees are an
  inductive `FSNode`, `stat`/`trash` answers are parameters.
* Code that throws is modelled with `Except`; the three distinct throw sites
  of `validatePathForDeletion` become the three constructors of `DelError`.
* Destructive effects are made observable: `safeDelete` and `performCleanup`
  additionally return the list of paths passed to the trash primitive.
-/

namespace DClean

/-! ## JS string primitives -/

/-- Boolean prefix test on character lists (JS `String.prototype.startsWith`
on the underlying character sequences). -/
def listIsPrefix : List Char → List Char → Bool
  | [], _ => true
  | _ :: _, [] => false
  | a :: as, b :: bs => a = b && listIsPrefix as bs

/-- JS `s.startsWith(pre)`: `pre` is a character-for-character prefix of `s`.
Note this is a plain string-prefix test, not a path-ancestry test. -/
def jsStartsWith (s pre : String) : Bool := listIsPrefix pre.data s.data

/-- JS `s.endsWith(suf)`. -/
def jsEndsWith (s suf : String) : Bool := listIsPrefix suf.data.reverse s.data.reverse

/-- Worker for `jsSplitSlash`: `acc` holds the current piece, reversed. -/
def splitSlashAux : List Char → List Char → List String
  | [], acc => [⟨acc.reverse⟩]
  | c :: rest, acc =>
    if c = '/' then ⟨acc.reverse⟩ :: splitSlashAux rest []
    else splitSlashAux rest (c :: acc)

/-- JS `s.split('/')`: split on every `'/'`, keeping empty pieces
(`"/a/b".split('/') = ["", "a", "b"]`). -/
def jsSplitSlash (s : String) : List String := splitSlashAux s.data []

/-! ## Node `path` primitives (POSIX) -/

/-- Component normalization used by Node `path.posix.resolve` on an absolute
path: empty and `"."` pieces are dropped, `".."` pops (and is dropped at the
root). -/
def normComponents (comps : List String) : List String :=
  comps.foldl
    (fun acc c =>
      if c = "" ∨ c = "." then acc
      else if c = ".." then acc.dropLast
      else acc ++ [c])
    []

/-- Render an absolute path from its components (`[] ↦ "/"`,
`["a","b"] ↦ "/a/b"`). -/
def renderAbs (comps : List String) : String :=
  "/" ++ String.intercalate "/" comps

/-- Node `path.resolve(p)` (POSIX) given the process working directory `cwd`
(an absolute path): an absolute argument is normalized, a relative one is
resolved against `cwd` first. -/
def pathResolve (cwd p : String) : String :=
  if jsStartsWith p "/" then renderAbs (normComponents (jsSplitSlash p))
  else renderAbs (normComponents (jsSplitSlash (cwd ++ "/" ++ p)))

/-- Node `path.posix.basename` for paths without a trailing slash: the part
after the last `'/'` (the whole string when it has no `'/'`). -/
def jsBasename (s : String) : String := ⟨(s.data.reverse.takeWhile (· ≠ '/')).reverse⟩

/-- Node `path.posix.dirname` for paths without a trailing slash: the part
before the last `'/'` (`"/"` when the only `'/'` is the leading one, `"."`
when there is none). -/
def jsDirname (s : String) : String :=
  match s.data.reverse.dropWhile (· ≠ '/') with
  | [] => "."
  | [_] => "/"
  | _ :: rest => ⟨rest.reverse⟩

/-! ## Deletion safety gate (`src/cleaner/safeDelete.js`)

Throughout, `home` models `path.resolve(os.homedir())`: `os.homedir()` is an
absolute path and `path.resolve` of an absolute normalized path is the path
itself, so we pass the resolved home directory around directly.  `cwd` is the
process working directory used by `path.resolve` for relative arguments. -/

/-- The three distinct failure kinds thrown by `validatePathForDeletion`,
one per throw site; `message` recovers the exact JS error message. -/
inductive DelError where
  | invalidPath
  | outsideHome
  | protectedDir (dirPath : String)
deriving DecidableEq, Repr

/-- The JS `Error` message carried by each `DelError`. -/
def DelError.message : DelError → String
  | .invalidPath => "Invalid path for deletion"
  | .outsideHome => "Can only delete within home directory"
  | .protectedDir p => "Cannot delete protected directory: " ++ p

/-- `getProtectedPaths()`.  For the normalized absolute `home`,
`path.resolve(path.join(home, name))` is plain concatenation
`home ++ "/" ++ name`. -/
def getProtectedPaths (home : String) : List String :=
  [home,
   home ++ "/Desktop",
   home ++ "/Documents",
   home ++ "/Downloads",
   home ++ "/.ssh",
   home ++ "/Library"]

/-- `validatePathForDeletion(dirPath)`.  The JS guard
`!dirPath || dirPath === '/' || dirPath === ''` holds for a string exactly
when it is `""` or `"/"` (the empty string is the only falsy string). -/
def validatePathForDeletion (cwd home dirPath : String) : Except DelError Unit :=
  if dirPath = "" ∨ dirPath = "/" then
    .error .invalidPath
  else
    let resolved := pathResolve cwd dirPath
    if ¬ jsStartsWith resolved home ∨ resolved = home then
      .error .outsideHome
    else
      -- Only block deleting the protected folders themselves, not their contents
      let protectedPaths := (getProtectedPaths home).filter (fun p => p ≠ home)
      if protectedPaths.any (fun p => p = resolved) then
        .error (.protectedDir dirPath)
      else
        .ok ()

/-- Outcome of one call to the trash primitive, as classified by `safeDelete`:
success, an `EACCES`-coded error, an `ENOENT`-coded error, or any other error
(carrying its message). -/
inductive TrashResult where
  | ok
  | eacces
  | enoent
  | otherErr (msg : String)
deriving DecidableEq, Repr

/-- Errors `safeDelete` can throw: a validation error propagated from
`validatePathForDeletion`, the `'Permission denied: ' + dirPath` error built
for `EACCES`, or a rethrown trash error. -/
inductive CleanupError where
  | validation (e : DelError)
  | permissionDenied (dirPath : String)
  | trashErr (msg : String)
deriving DecidableEq, Repr

/-- The JS `Error` message carried by each `CleanupError`. -/
def CleanupError.message : CleanupError → String
  | .validation e => e.message
  | .permissionDenied p => "Permission denied: " ++ p
  | .trashErr m => m

/-- `safeDelete(dirPath, { dryRun })` with the trash primitive modelled by the
oracle `trash : String → TrashResult` (its answer for a given resolved path).
The second component is the list of paths actually passed to the trash
primitive — the filesystem-mutation trace. -/
def safeDelete (trash : String → TrashResult) (cwd home dirPath : String)
    (dryRun : Bool) : Except CleanupError Unit × List String :=
  match validatePathForDeletion cwd home dirPath with
  | .error e => (.error (.validation e), [])
  | .ok () =>
    let resolved := pathResolve cwd dirPath
    if dryRun then (.ok (), [])
    else
      match trash resolved with
      | .ok => (.ok (), [resolved])
      | .eacces => (.error (.permissionDenied dirPath), [resolved])
      | .enoent => (.ok (), [resolved])  -- already gone: treated as success
      | .otherErr m => (.error (.trashErr m), [resolved])

/-! ## Cleanup executor (`src/cleaner/index.js`) -/

/-- Age-in-days value: `Infinity` sentinel or a (possibly negative) integer
number of days. -/
inductive DaysVal where
  | infinite
  | days (n : Int)
deriving DecidableEq, Repr

/-- An item inside a `Selection` (`{ path, size?, lastModifiedDays? }`);
`size` and `lastModifiedDays` may be absent in JS, hence `Option`. -/
structure ScanItem where
  path : String
  size : Option Nat
  lastModifiedDays : Option DaysVal
deriving DecidableEq, Repr

/-- A user selection: a category tag plus the chosen items. -/
structure Selection where
  type : String
  items : List ScanItem
deriving DecidableEq, Repr

/-- An entry of the deduplicated list built by `flattenAndDedupe`
(`{ path, size: item.size || 0, lastModifiedDays }`). -/
structure DedupedItem where
  path : String
  size : Nat
  lastModifiedDays : Option DaysVal
deriving DecidableEq, Repr

/-- One step of `flattenAndDedupe`'s inner loop: insert `item` unless its
path is already present.  The JS `Map` keyed by path with
`Array.from(map.values())` is an insertion-ordered association list, modelled
as a list with membership test on the key. -/
def dedupeInsert (acc : List DedupedItem) (item : ScanItem) : List DedupedItem :=
  if acc.any (fun e => e.path = item.path) then acc
  else acc ++ [{ path := item.path, size := item.size.getD 0,
                 lastModifiedDays := item.lastModifiedDays }]

/-- `flattenAndDedupe(selections)`: iterate selections, then their items,
keeping the first occurrence of each path. -/
def flattenAndDedupe (selections : List Selection) : List DedupedItem :=
  selections.foldl (fun acc sel => sel.items.foldl dedupeInsert acc) []

/-- One per-item record pushed onto `results` by `performCleanup`
(`size` is present only on the success records). -/
structure ItemOutcome where
  path : String
  size : Option Nat
  success : Bool
  error : Option String
deriving DecidableEq, Repr

/-- The aggregate returned by `performCleanup`. -/
structure CleanupResult where
  totalFreed : Nat
  results : List ItemOutcome
  successCount : Nat
  failCount : Nat
deriving DecidableEq, Repr

/-- One iteration of the `performCleanup` loop for `item`: the freed-bytes
increment, the pushed `ItemOutcome`, and the trash calls made. -/
def cleanupStep (trash : String → TrashResult) (cwd home : String) (dryRun : Bool)
    (item : DedupedItem) : (Nat × ItemOutcome) × List String :=
  if dryRun then
    -- logger.info('[DRY RUN] Would delete: ...'); no safeDelete call is made
    ((item.size, { path := item.path, size := some item.size,
                   success := true, error := none }), [])
  else
    match safeDelete trash cwd home item.path false with
    | (.ok _, calls) =>
      ((item.size, { path := item.path, size := some item.size,
                     success := true, error := none }), calls)
    | (.error e, calls) =>
      ((0, { path := item.path, size := none,
             success := false, error := some e.message }), calls)

/-- The `for (const item of items)` loop of `performCleanup`: accumulates
`totalFreed`, the `results` list (in order), and the trash-call trace. -/
def cleanupLoop (trash : String → TrashResult) (cwd home : String) (dryRun : Bool) :
    List DedupedItem → Nat × List ItemOutcome × List String
  | [] => (0, [], [])
  | item :: rest =>
    let ((freed, outcome), calls) := cleanupStep trash cwd home dryRun item
    let (tf, rs, cs) := cleanupLoop trash cwd home dryRun rest
    (freed + tf, outcome :: rs, calls ++ cs)

/-- `performCleanup(selections, { dryRun })`.  The second component is the
full trace of paths passed to the trash primitive during the batch. -/
def performCleanup (trash : String → TrashResult) (cwd home : String)
    (selections : List Selection) (dryRun : Bool) : CleanupResult × List String :=
  let items := flattenAndDedupe selections
  let (totalFreed, results, calls) := cleanupLoop trash cwd home dryRun items
  ({ totalFreed := totalFreed,
     results := results,
     successCount := (results.filter (fun r => r.success)).length,
     failCount := (results.filter (fun r => !r.success)).length }, calls)

/-! ## Size & metadata oracle (`src/utils/fileSystem.js`, `src/scanners/baseScanner.js`) -/

/-- `getLastModified(path)`: `fs.stat(path).mtime`, or `null` when `stat`
throws.  The filesystem's answer is the oracle `statMtime : Option Int`
(mtime in milliseconds since the epoch, `none` when unreadable). -/
def getLastModified (statMtime : Option Int) : Option Int := statMtime

/-- The `{ lastModified, lastModifiedDays }` payload of
`BaseScanner.getMetadata`. -/
structure Metadata where
  lastModified : Option Int
  lastModifiedDays : DaysVal
deriving DecidableEq, Repr

/-- `24 * 60 * 60 * 1000` milliseconds. -/
def msPerDay : Int := 24 * 60 * 60 * 1000

/-- `BaseScanner.getMetadata(dirPath)` with `Date.now()` given as `now` (ms).
A JS `Date` object is always truthy, so `if (!mtime)` tests exactly for
`null`.  `Math.floor` of the real quotient of two integers by the positive
`msPerDay` is floor division `Int.fdiv`. -/
def getMetadata (now : Int) (statMtime : Option Int) : Metadata :=
  match getLastModified statMtime with
  | none => { lastModified := none, lastModifiedDays := .infinite }
  | some mtime =>
    { lastModified := some mtime,
      lastModifiedDays := .days ((now - mtime).fdiv msPerDay) }

/-! ## Tree walker and node_modules scanner
(`src/utils/fileSystem.js`, `src/scanners/nodeModules.js`)

The filesystem is a tree: directory entries are named children.  `lstat` and
`readdir` are assumed to succeed (error-free filesystem); `EACCES`/`ENOENT`
subtree skipping is not exercised by the claims below. -/

/-- A filesystem node: regular file, symbolic link, or directory with named
children. -/
inductive FSNode where
  | file (size : Nat)
  | symlink
  | dir (entries : List (String × FSNode))

/-- `IGNORE_DIRS` from `src/utils/constants.js`. -/
def IGNORE_DIRS : List String :=
  [".Trash", "Library", "System", ".git", ".cache", "node_modules/node_modules"]

/-- `MAX_SCAN_DEPTH` from `src/utils/constants.js`. -/
def MAX_SCAN_DEPTH : Nat := 5

/-- The directories collected by `findDirectories(startPath, targetName)`:
it drives `walkDirectory` with a callback that records every visited
directory whose basename is `targetName`.  `fuel` is the remaining allowed
depth — the source guard `depth > maxDepth` corresponds to `fuel = 0`, and
the top-level call `walk(dirPath, 0)` receives `fuel = maxDepth + 1`.
`path.join(currentPath, entry)` is concatenation with `"/"` for well-formed
entry names.  The `onEnterDir` hook is progress-only and not modelled. -/
def walkFound (target : String) (ignoreDirs skipInto : List String) :
    Nat → FSNode → String → List String
  | 0, _, _ => []
  | _ + 1, .file _, _ => []     -- visit(file) never records: not a directory
  | _ + 1, .symlink, _ => []    -- symlinks are skipped outright
  | fuel + 1, .dir entries, currentPath =>
    let base := jsBasename currentPath
    if ignoreDirs.any (fun ignore => base = ignore || jsEndsWith currentPath ignore) then
      []
    else
      let self := if base = target then [currentPath] else []
      if skipInto.contains base then
        self
      else
        self ++ entries.flatMap
          (fun e => walkFound target ignoreDirs skipInto fuel e.2 (currentPath ++ "/" ++ e.1))

/-- The list of `node_modules` paths produced by `NodeModulesScanner.scan`
(the `items` paths, before size/metadata decoration): `findDirectories` with
`skipDescendingInto` defaulted to `['node_modules']`, then the
nested-instance filter `!parentDir.split(path.sep).includes('node_modules')`. -/
def nodeModulesScanPaths (tree : FSNode) (basePath : String) : List String :=
  let nodeModulesDirs :=
    walkFound "node_modules" IGNORE_DIRS ["node_modules"] (MAX_SCAN_DEPTH + 1) tree basePath
  nodeModulesDirs.filter
    (fun dir => ¬ (jsSplitSlash (jsDirname dir)).contains "node_modules")

/-! ## Xcode scanner (`src/scanners/xcodeDerivedData.js`) and orchestrator
(`src/scanners/index.js`)

`runAllScans` creates one `XcodeScanner` instance and runs
`Promise.all(paths.map(p => scanner.scan(p, ...)))` over the configured
roots — the instance (and its `globalScanned` flag) is shared by all roots.

In JS's single-threaded cooperative model each `scan(p)` call executes
synchronously up to its first `await`.  The first `await` in the body is the
one inside the condition `!this.globalScanned && await pathExists(...)`:
the read of `this.globalScanned` happens in the synchronous prefix (before
the suspension), while the assignment `this.globalScanned = true` happens
only in the continuation after the `await` resolves.  An `await` always
suspends, so under `Promise.all` every root's synchronous prefix (hence
every flag read) runs before any root's continuation (hence before any flag
write).  Every scan therefore observes the initial value `false`. -/

/-- The filesystem oracles used by `XcodeScanner.scan`, one per filesystem
call site. -/
structure XcodeFS where
  /-- `await pathExists(p)`. -/
  pathExists : String → Bool
  /-- The entries of `fs.readdirSync(p, { withFileTypes: true })` that are
  directories. -/
  readdirDirs : String → List String
  /-- The result of `this.findDirectories(basePath, 'build', ...)`. -/
  buildDirs : String → List String
  /-- `fs.readdirSync(parentDir).some(f => f.endsWith('.xcodeproj') ||
  f.endsWith('.xcworkspace'))`. -/
  hasXcodeProjEntry : String → Bool

/-- The item paths produced by one `XcodeScanner.scan(basePath)` call, given
the value `observedGlobalScanned` that this call's synchronous prefix read
from `this.globalScanned`. -/
def xcodeScanOnce (fs : XcodeFS) (home basePath : String)
    (observedGlobalScanned : Bool) : List String :=
  let derivedDataPath := home ++ "/Library/Developer/Xcode/DerivedData"
  let ddItems :=
    if !observedGlobalScanned && fs.pathExists derivedDataPath then
      (fs.readdirDirs derivedDataPath).map (fun entry => derivedDataPath ++ "/" ++ entry)
    else []
  let localItems :=
    (fs.buildDirs basePath).filter
      (fun dir => !(jsStartsWith dir derivedDataPath)
        && fs.hasXcodeProjEntry (jsDirname dir))
  ddItems ++ localItems

/-- The merged `xcodeBuilds` item paths produced by `runAllScans` over
`roots`: per-root results concatenated by `mergeResults` (`Promise.all`
preserves order).  Per the scheduling argument above, every root's scan
observes `globalScanned = false`. -/
def xcodeScanAllRoots (fs : XcodeFS) (home : String) (roots : List String) :
    List String :=
  (roots.map (fun root => xcodeScanOnce fs home root false)).flatten

/-! ## Auxiliary definitions used in theorem statements -/

deriving instance DecidableEq for Except

/-- Spec-side notion: the resolved `p` is a strict descendant of `home`
(some non-empty path below `home`, with a component boundary). -/
def isStrictDescendant (home p : String) : Bool :=
  jsStartsWith p (home ++ "/") && p ≠ home ++ "/"

/-- The `DedupedItem` built from a `ScanItem` by `flattenAndDedupe`. -/
def toDeduped (it : ScanItem) : DedupedItem :=
  { path := it.path, size := it.size.getD 0, lastModifiedDays := it.lastModifiedDays }

/-- The `ItemOutcome` produced for one item by a non-dry-run
`performCleanup` iteration. -/
def nonDryOutcome (trash : String → TrashResult) (cwd home : String)
    (item : DedupedItem) : ItemOutcome :=
  ((cleanupStep trash cwd home false item).1).2

/-- Example tree for the nesting-exclusion scenario: a `proj` directory whose
`node_modules` contains a package with its own nested `node_modules`. -/
def nestedNodeModulesTree : FSNode :=
  .dir [("proj", .dir [("node_modules", .dir [("pkg", .dir [("node_modules", .dir [])])])])]

/-- Concrete selection containing a path that fails the safety gate
(outside the home directory), used to probe dry-run behaviour. -/
def outsideHomeSelection : Selection :=
  { type := "node_modules",
    items := [{ path := "/etc/foo", size := some 4096, lastModifiedDays := none }] }

/-- Concrete filesystem oracle for the Xcode scanner: the global DerivedData
cache exists and holds one project directory; no project-local build
directories anywhere. -/
def xcodeDemoFS : XcodeFS where
  pathExists := fun p => p = "/home/u/Library/Developer/Xcode/DerivedData"
  readdirDirs := fun p =>
    if p = "/home/u/Library/Developer/Xcode/DerivedData" then ["MyApp-gqtvduzyxw"] else []
  buildDirs := fun _ => []
  hasXcodeProjEntry := fun _ => false

/-! ## Auxiliary lemmas -/

theorem string_eta (s : String) : String.mk s.data = s := by
  cases s; rfl

theorem listIsPrefix_self_append (l t : List Char) : listIsPrefix l (l ++ t) = true := by
  induction l with
  | nil => rfl
  | cons a as ih => simp [listIsPrefix, ih]

theorem listIsPrefix_iff_append (l₁ l₂ : List Char) :
    listIsPrefix l₁ l₂ = true ↔ ∃ t, l₂ = l₁ ++ t := by
  constructor
  · intro h
    induction l₁ generalizing l₂ with
    | nil => exact ⟨l₂, rfl⟩
    | cons a as ih =>
      cases l₂ with
      | nil => simp [listIsPrefix] at h
      | cons b bs =>
        simp only [listIsPrefix, Bool.and_eq_true, decide_eq_true_eq] at h
        obtain ⟨t, ht⟩ := ih bs h.2
        exact ⟨t, by simp [← h.1, ht]⟩
  · rintro ⟨t, rfl⟩
    exact listIsPrefix_self_append l₁ t

theorem ne_append_of_not_listIsPrefix (x d : List Char)
    (h : listIsPrefix x d = false) (t : List Char) : d ≠ x ++ t := by
  intro he
  rw [he, listIsPrefix_self_append] at h
  cases h

theorem listIsPrefix_singleton (l : List Char) (c : Char)
    (h : listIsPrefix l [c] = true) : l = [] ∨ l = [c] := by
  obtain ⟨t, ht⟩ := (listIsPrefix_iff_append l [c]).mp h
  cases l with
  | nil => exact Or.inl rfl
  | cons a as =>
    simp only [List.cons_append, List.cons.injEq] at ht
    obtain ⟨rfl, hrest⟩ := ht
    have : as = [] := (List.append_eq_nil.mp hrest.symm).1
    exact Or.inr (by simp [this])

theorem takeWhile_append_all {p : Char → Bool} (l₁ l₂ : List Char)
    (h : ∀ a ∈ l₁, p a = true) :
    (l₁ ++ l₂).takeWhile p = l₁ ++ l₂.takeWhile p := by
  induction l₁ with
  | nil => rfl
  | cons a as ih =>
    have ha := h a (by simp)
    simp only [List.cons_append, List.takeWhile_cons, ha, if_true]
    rw [ih (fun x hx => h x (by simp [hx]))]

theorem dropWhile_append_all {p : Char → Bool} (l₁ l₂ : List Char)
    (h : ∀ a ∈ l₁, p a = true) :
    (l₁ ++ l₂).dropWhile p = l₂.dropWhile p := by
  induction l₁ with
  | nil => rfl
  | cons a as ih =>
    have ha := h a (by simp)
    simp only [List.cons_append, List.dropWhile_cons, ha, if_true]
    exact ih (fun x hx => h x (by simp [hx]))

theorem cleanupLoop_eq (trash : String → TrashResult) (cwd home : String)
    (dryRun : Bool) (l : List DedupedItem) :
    cleanupLoop trash cwd home dryRun l =
      ((l.map (fun i => ((cleanupStep trash cwd home dryRun i).1).1)).sum,
       l.map (fun i => ((cleanupStep trash cwd home dryRun i).1).2),
       (l.map (fun i => (cleanupStep trash cwd home dryRun i).2)).flatten) := by
  induction l with
  | nil => rfl
  | cons i rest ih => simp [cleanupLoop, ih]

theorem cleanupStep_path (trash : String → TrashResult) (cwd home : String)
    (dryRun : Bool) (item : DedupedItem) :
    (((cleanupStep trash cwd home dryRun item).1).2).path = item.path := by
  unfold cleanupStep
  cases dryRun with
  | false =>
    simp only [Bool.false_eq_true, if_false]
    rcases h : safeDelete trash cwd home item.path false with ⟨res, calls⟩
    cases res <;> simp
  | true => simp

theorem length_filter_bool_split (l : List ItemOutcome) :
    (l.filter (fun r => r.success)).length + (l.filter (fun r => !r.success)).length
      = l.length := by
  induction l with
  | nil => rfl
  | cons a t ih =>
    cases h : a.success <;> simp [List.filter_cons, h] <;> omega

theorem validate_eq (cwd home p : String) :
    validatePathForDeletion cwd home p =
      if p = "" ∨ p = "/" then .error .invalidPath
      else if ¬ jsStartsWith (pathResolve cwd p) home ∨ pathResolve cwd p = home then
        .error .outsideHome
      else if ((getProtectedPaths home).filter (fun q => q ≠ home)).any
          (fun q => q = pathResolve cwd p) then
        .error (.protectedDir p)
      else .ok () := rfl

/-! ## Claim theorems -/

/-- Claim C1, code evidence.  With home directory `/home/user`, the sibling
directory `/home/userx` — not a descendant of home — passes
`validatePathForDeletion` without any error, because the outside-home check
is the character-prefix test `resolved.startsWith(home)`.  The claim says
every path whose resolved form is not a strict descendant of home must fail
with the outside-home kind. -/
theorem validate_accepts_home_string_sibling :
    validatePathForDeletion "/" "/home/user" "/home/userx" = .ok ()
    ∧ isStrictDescendant "/home/user" "/home/userx" = false := by decide

/-- Claim C9, counterexample to non-negativity: a modification time one day
in the future yields `lastModifiedDays = -1`, not a non-negative integer. -/
theorem getMetadata_future_mtime_negative :
    (getMetadata 0 (some msPerDay)).lastModifiedDays = .days (-1)
    ∧ ((-1 : Int) < 0) := by
  exact ⟨by decide, by decide⟩

/-- Claim C9, amended: `lastModifiedDays` is the unknown/infinite sentinel
exactly when the mtime cannot be read, and otherwise equals
`floor((now - mtime) / 1 day)`; that value is non-negative whenever the
mtime does not lie in the future (`mtime ≤ now`). -/
theorem getMetadata_days_characterization (now : Int) (statMtime : Option Int) :
    ((getMetadata now statMtime).lastModifiedDays = .infinite ↔ statMtime = none)
    ∧ (∀ t, statMtime = some t →
        (getMetadata now statMtime).lastModifiedDays = .days ((now - t).fdiv msPerDay))
    ∧ (∀ t, statMtime = some t → t ≤ now →
        ∃ k, (getMetadata now statMtime).lastModifiedDays = .days k ∧ 0 ≤ k) := by
  refine ⟨?_, ?_, ?_⟩
  · cases statMtime <;> simp [getMetadata, getLastModified]
  · rintro t rfl
    simp [getMetadata, getLastModified]
  · rintro t rfl hle
    refine ⟨(now - t).fdiv msPerDay, by simp [getMetadata, getLastModified], ?_⟩
    exact Int.fdiv_nonneg (by omega) (by decide)

/-- Witness for `getMetadata_days_characterization` at a concrete input. -/
theorem getMetadata_days_characterization_witness :
    ∃ k, (getMetadata 100 (some 50)).lastModifiedDays = .days k ∧ 0 ≤ k :=
  (getMetadata_days_characterization 100 (some 50)).2.2 50 rfl (by decide)

/-- Claim C7, code evidence.  With two scan roots and a DerivedData cache
holding one project directory, the merged Xcode items contain that child
twice: under `Promise.all` every root's scan reads `globalScanned = false`
before any scan sets it (the flag is only written after the first `await`),
so the "global, once-per-process" DerivedData scan runs once per root. -/
theorem xcode_derivedData_child_duplicated_across_roots :
    xcodeScanAllRoots xcodeDemoFS "/home/u" ["/home/u/code", "/home/u/work"]
      = ["/home/u/Library/Developer/Xcode/DerivedData/MyApp-gqtvduzyxw",
         "/home/u/Library/Developer/Xcode/DerivedData/MyApp-gqtvduzyxw"]
    ∧ (xcodeScanAllRoots xcodeDemoFS "/home/u" ["/home/u/code", "/home/u/work"]).count
        "/home/u/Library/Developer/Xcode/DerivedData/MyApp-gqtvduzyxw" = 2 := by
  exact ⟨by decide, by decide⟩

/-- Claim C2, counterexample to "dry run still exercises the validation path
for every selected item": a selected path outside home is reported as a
success (with its size counted) by a dry-run `performCleanup`, although the
safety gate rejects it — the dry-run branch returns before `safeDelete` is
ever called.  A non-dry-run on the same selection fails the item. -/
theorem performCleanup_dryRun_bypasses_gate :
    (performCleanup (fun _ => .ok) "/" "/home/user" [outsideHomeSelection] true).2 = []
    ∧ (performCleanup (fun _ => .ok) "/" "/home/user" [outsideHomeSelection] true).1
        = { totalFreed := 4096,
            results := [{ path := "/etc/foo", size := some 4096,
                          success := true, error := none }],
            successCount := 1, failCount := 0 }
    ∧ validatePathForDeletion "/" "/home/user" "/etc/foo" = .error .outsideHome
    ∧ (performCleanup (fun _ => .ok) "/" "/home/user" [outsideHomeSelection] false).1.successCount
        = 0 := by
  refine ⟨by decide, by decide, by decide, by decide⟩

theorem cleanupLoop_dryRun (trash : String → TrashResult) (cwd home : String)
    (l : List DedupedItem) :
    cleanupLoop trash cwd home true l =
      ((l.map (fun i => i.size)).sum,
       l.map (fun i => { path := i.path, size := some i.size,
                         success := true, error := none }),
       []) := by
  induction l with
  | nil => rfl
  | cons i rest ih => simp [cleanupLoop, cleanupStep, ih]

/-- Claim C2, amended: a dry-run `performCleanup` never invokes the trash
primitive (empty mutation trace), counts every deduplicated selected item's
size toward `totalFreed`, and reports every deduplicated item as a success —
but it does so without running the safety-gate validation (see the
counterexample theorem): the dry-run branch short-circuits before
`safeDelete`. -/
theorem performCleanup_dryRun_frame (trash : String → TrashResult) (cwd home : String)
    (sels : List Selection) :
    (performCleanup trash cwd home sels true).2 = []
    ∧ (performCleanup trash cwd home sels true).1.totalFreed
        = ((flattenAndDedupe sels).map (fun i => i.size)).sum
    ∧ (performCleanup trash cwd home sels true).1.successCount
        = (flattenAndDedupe sels).length
    ∧ (performCleanup trash cwd home sels true).1.failCount = 0 := by
  simp only [performCleanup, cleanupLoop_dryRun]
  refine ⟨trivial, trivial, ?_, ?_⟩
  · rw [List.filter_eq_self.mpr, List.length_map]
    intro a ha
    obtain ⟨i, _, rfl⟩ := List.mem_map.mp ha
    rfl
  · rw [List.filter_eq_nil_iff.mpr, List.length_nil]
    intro a ha
    obtain ⟨i, _, rfl⟩ := List.mem_map.mp ha
    simp

/-- Claim C10: for every selection list and either dry-run value,
`performCleanup` produces exactly one outcome per deduplicated selected path
(in order, each outcome carrying that item's path), and
`successCount + failCount` equals that number of outcomes. -/
theorem performCleanup_outcome_per_item (trash : String → TrashResult)
    (cwd home : String) (sels : List Selection) (dryRun : Bool) :
    ((performCleanup trash cwd home sels dryRun).1.results.map (fun r => r.path)
       = (flattenAndDedupe sels).map (fun i => i.path))
    ∧ (performCleanup trash cwd home sels dryRun).1.successCount
        + (performCleanup trash cwd home sels dryRun).1.failCount
      = (performCleanup trash cwd home sels dryRun).1.results.length := by
  simp only [performCleanup, cleanupLoop_eq]
  constructor
  · rw [List.map_map]
    exact List.map_congr_left (fun i _ => cleanupStep_path trash cwd home dryRun i)
  · exact length_filter_bool_split _

/-- Claim C5: in a non-dry-run batch, the results list has one entry per
deduplicated item (no failure aborts the batch), and for every item passing
the safety gate, an `EACCES` trash failure yields the distinct
"permission denied" failure outcome for that item, an `ENOENT` condition is
recorded as a success (idempotent), and any other trash error yields a
generic failure outcome carrying that error's message. -/
theorem performCleanup_trash_failure_classification (trash : String → TrashResult)
    (cwd home : String) (sels : List Selection) :
    ((performCleanup trash cwd home sels false).1.results
       = (flattenAndDedupe sels).map (nonDryOutcome trash cwd home))
    ∧ ∀ item ∈ flattenAndDedupe sels,
        validatePathForDeletion cwd home item.path = .ok () →
        (trash (pathResolve cwd item.path) = .eacces →
          nonDryOutcome trash cwd home item
            = { path := item.path, size := none, success := false,
                error := some ("Permission denied: " ++ item.path) })
        ∧ (trash (pathResolve cwd item.path) = .enoent →
          nonDryOutcome trash cwd home item
            = { path := item.path, size := some item.size,
                success := true, error := none })
        ∧ (∀ msg, trash (pathResolve cwd item.path) = .otherErr msg →
          nonDryOutcome trash cwd home item
            = { path := item.path, size := none, success := false,
                error := some msg }) := by
  constructor
  · simp only [performCleanup, cleanupLoop_eq]
    rfl
  · intro item _ hval
    refine ⟨?_, ?_, ?_⟩
    · intro h
      simp [nonDryOutcome, cleanupStep, safeDelete, hval, h, CleanupError.message]
    · intro h
      simp [nonDryOutcome, cleanupStep, safeDelete, hval, h]
    · intro msg h
      simp [nonDryOutcome, cleanupStep, safeDelete, hval, h, CleanupError.message]

/-- Witness for `performCleanup_trash_failure_classification` at a concrete
input. -/
theorem performCleanup_trash_failure_classification_witness :
    nonDryOutcome (fun _ => .eacces) "/" "/home/user"
        { path := "/home/user/proj/node_modules", size := 7, lastModifiedDays := none }
      = { path := "/home/user/proj/node_modules", size := none, success := false,
          error := some ("Permission denied: " ++ "/home/user/proj/node_modules") } :=
  ((performCleanup_trash_failure_classification (fun _ => .eacces) "/" "/home/user"
        [{ type := "node_modules",
           items := [{ path := "/home/user/proj/node_modules", size := some 7,
                       lastModifiedDays := none }] }]).2
      { path := "/home/user/proj/node_modules", size := 7, lastModifiedDays := none }
      (by decide) (by decide)).1 (by decide)

theorem foldl_flatMap_eq (sels : List Selection) (init : List DedupedItem) :
    sels.foldl (fun acc sel => sel.items.foldl dedupeInsert acc) init
      = (sels.flatMap (fun s => s.items)).foldl dedupeInsert init := by
  induction sels generalizing init with
  | nil => rfl
  | cons s t ih => simp [List.flatMap_cons, List.foldl_append, ih]

theorem dedupeFold_invariant (l : List ScanItem) :
    ∀ (pre : List ScanItem) (acc : List DedupedItem),
    (acc.map (fun e => e.path)).Nodup →
    (∀ e ∈ acc, ∃ it, pre.find? (fun it => it.path = e.path) = some it
      ∧ e = toDeduped it) →
    (∀ q : String, (∃ e ∈ acc, e.path = q) ↔ (∃ it ∈ pre, it.path = q)) →
    ((l.foldl dedupeInsert acc).map (fun e => e.path)).Nodup
    ∧ (∀ e ∈ l.foldl dedupeInsert acc, ∃ it,
        (pre ++ l).find? (fun it => it.path = e.path) = some it
        ∧ e = toDeduped it) := by
  induction l with
  | nil =>
    intro pre acc hnd hfind _
    simpa using ⟨hnd, hfind⟩
  | cons i t ih =>
    intro pre acc hnd hfind hiff
    have hstep :
        ((dedupeInsert acc i).map (fun e => e.path)).Nodup
        ∧ (∀ e ∈ dedupeInsert acc i, ∃ it,
            (pre ++ [i]).find? (fun it => it.path = e.path) = some it
            ∧ e = toDeduped it)
        ∧ (∀ q : String, (∃ e ∈ dedupeInsert acc i, e.path = q)
            ↔ (∃ it ∈ pre ++ [i], it.path = q)) := by
      by_cases h : acc.any (fun e => e.path = i.path)
      · have hdup : ∃ e ∈ acc, e.path = i.path := by
          simpa using h
        rw [dedupeInsert, if_pos h]
        refine ⟨hnd, ?_, ?_⟩
        · intro e he
          obtain ⟨it, hit, hed⟩ := hfind e he
          exact ⟨it, by simp [List.find?_append, hit], hed⟩
        · intro q
          constructor
          · intro hq
            obtain ⟨it, hit, hq'⟩ := (hiff q).mp hq
            exact ⟨it, by simp [hit], hq'⟩
          · rintro ⟨it, hit, rfl⟩
            rcases List.mem_append.mp hit with hpre | hi
            · exact (hiff it.path).mpr ⟨it, hpre, rfl⟩
            · have hii : it = i := by simpa using hi
              obtain ⟨e, he, hep⟩ := hdup
              exact ⟨e, he, by rw [hep, hii]⟩
      · have hnodup : ∀ e ∈ acc, ¬ e.path = i.path := by
          intro e he hep
          exact h (List.any_eq_true.mpr ⟨e, he, by simpa using hep⟩)
        have hnone : pre.find? (fun it => it.path = i.path) = none := by
          rw [List.find?_eq_none]
          intro it hit hp
          have : ∃ e ∈ acc, e.path = i.path :=
            (hiff i.path).mpr ⟨it, hit, by simpa using hp⟩
          obtain ⟨e, he, hep⟩ := this
          exact hnodup e he hep
        rw [dedupeInsert, if_neg h]
        refine ⟨?_, ?_, ?_⟩
        · rw [List.map_append, List.nodup_append]
          refine ⟨hnd, by simp, ?_⟩
          intro q hq hq'
          have hqi : q = i.path := by simpa [toDeduped] using hq'
          obtain ⟨e, he, hep⟩ := List.mem_map.mp hq
          exact hnodup e he (hep.trans hqi)
        · intro e he
          rcases List.mem_append.mp he with hacc | hnew
          · obtain ⟨it, hit, hed⟩ := hfind e hacc
            exact ⟨it, by simp [List.find?_append, hit], hed⟩
          · obtain rfl : e = toDeduped i := by simpa using hnew
            refine ⟨i, ?_, rfl⟩
            rw [List.find?_append]
            simp [hnone, toDeduped, List.find?_cons]
        · intro q
          constructor
          · intro hq
            obtain ⟨e, he, hep⟩ := hq
            rcases List.mem_append.mp he with hacc | hnew
            · obtain ⟨it, hit, hq'⟩ := (hiff q).mp ⟨e, hacc, hep⟩
              exact ⟨it, by simp [hit], hq'⟩
            · obtain rfl : e = toDeduped i := by simpa using hnew
              exact ⟨i, by simp, by simpa [toDeduped] using hep⟩
          · rintro ⟨it, hit, rfl⟩
            rcases List.mem_append.mp hit with hpre | hi
            · obtain ⟨e, he, hep⟩ := (hiff it.path).mpr ⟨it, hpre, rfl⟩
              exact ⟨e, by simp [he], hep⟩
            · have hii : it = i := by simpa using hi
              exact ⟨toDeduped i, by simp [toDeduped], by simp [toDeduped, hii]⟩
    have hmain := ih (pre ++ [i]) (dedupeInsert acc i) hstep.1 hstep.2.1 hstep.2.2
    rw [List.foldl_cons]
    refine ⟨hmain.1, ?_⟩
    intro e he
    obtain ⟨it, hit, hed⟩ := hmain.2 e he
    refine ⟨it, ?_, hed⟩
    rw [show pre ++ i :: t = (pre ++ [i]) ++ t by simp]
    exact hit

/-- Claim C6: `flattenAndDedupe` never returns two entries with the same
path (even across overlapping selections), and each returned entry carries
the path, the defaulted size and the age metadata of the first occurrence of
that path in selection order. -/
theorem flattenAndDedupe_first_occurrence (sels : List Selection) :
    ((flattenAndDedupe sels).map (fun e => e.path)).Nodup
    ∧ ∀ e ∈ flattenAndDedupe sels, ∃ it,
        (sels.flatMap (fun s => s.items)).find? (fun it => it.path = e.path) = some it
        ∧ e.path = it.path ∧ e.size = it.size.getD 0
        ∧ e.lastModifiedDays = it.lastModifiedDays := by
  have h := dedupeFold_invariant (sels.flatMap (fun s => s.items)) [] []
      (by simp) (by simp) (by simp)
  rw [flattenAndDedupe, foldl_flatMap_eq]
  refine ⟨h.1, ?_⟩
  intro e he
  obtain ⟨it, hit, hed⟩ := h.2 e (by simpa using he)
  exact ⟨it, by simpa using hit, by simp [hed, toDeduped]⟩

/-- Witness for `flattenAndDedupe_first_occurrence`: two selections sharing
one path; the single returned entry carries the first occurrence's size. -/
theorem flattenAndDedupe_first_occurrence_witness :
    ∃ it,
      (([{ type := "node_modules",
           items := [{ path := "/home/u/a/node_modules", size := some 5,
                       lastModifiedDays := none }] },
         { type := "node_modules",
           items := [{ path := "/home/u/a/node_modules", size := some 9,
                       lastModifiedDays := none }] }] : List Selection).flatMap
          (fun s => s.items)).find?
        (fun i => i.path = ("/home/u/a/node_modules" : String)) = some it
      ∧ ("/home/u/a/node_modules" : String) = it.path ∧ (5 : Nat) = it.size.getD 0
      ∧ (none : Option DaysVal) = it.lastModifiedDays :=
  (flattenAndDedupe_first_occurrence
      [{ type := "node_modules",
         items := [{ path := "/home/u/a/node_modules", size := some 5,
                     lastModifiedDays := none }] },
       { type := "node_modules",
         items := [{ path := "/home/u/a/node_modules", size := some 9,
                     lastModifiedDays := none }] }]).2
    { path := "/home/u/a/node_modules", size := 5, lastModifiedDays := none }
    (by decide)

/-- Claim C4, counterexample: `"//"` resolves to the filesystem root, yet
`validatePathForDeletion` rejects it with the outside-home kind, not the
invalid-path kind — the `'' / '/'` check is a syntactic comparison performed
before resolution. -/
theorem validate_root_alias_wrong_kind :
    pathResolve "/" "//" = "/"
    ∧ validatePathForDeletion "/" "/home/user" "//" = .error .outsideHome
    ∧ DelError.outsideHome ≠ DelError.invalidPath := by
  exact ⟨by decide, by decide, by decide⟩

/-- Claim C4, amended: `validatePathForDeletion` fails with the invalid-path
kind exactly when its argument is literally `""` or `"/"` (checked before
resolution); any other path that resolves to the filesystem root fails with
the outside-home kind instead. -/
theorem validate_invalidPath_characterization (cwd home p : String) :
    (validatePathForDeletion cwd home p = .error .invalidPath ↔ p = "" ∨ p = "/")
    ∧ (home ≠ "" → p ≠ "" → p ≠ "/" → pathResolve cwd p = "/" →
        validatePathForDeletion cwd home p = .error .outsideHome) := by
  constructor
  · constructor
    · intro h
      by_cases hc : p = "" ∨ p = "/"
      · exact hc
      · exfalso
        rw [validate_eq, if_neg hc] at h
        split at h
        · simp_all
        · split at h <;> simp_all
    · intro hc
      rw [validate_eq, if_pos hc]
  · intro hhome h1 h2 hres
    have hc : ¬ (p = "" ∨ p = "/") := by tauto
    rw [validate_eq, if_neg hc, hres]
    by_cases hsw : jsStartsWith "/" home = true
    · have hdata : listIsPrefix home.data ['/'] = true := by
        simpa [jsStartsWith] using hsw
      rcases listIsPrefix_singleton home.data '/' hdata with h0 | h0
      · exact absurd (String.ext_iff.mpr (by simpa using h0)) hhome
      · have heq : home = "/" := String.ext_iff.mpr (by simpa using h0)
        rw [if_pos (Or.inr heq.symm)]
    · rw [if_pos (Or.inl (by simpa using hsw))]

/-- Witness for `validate_invalidPath_characterization`: the hypotheses of
its second conjunct discharged at `p = "//"`. -/
theorem validate_invalidPath_characterization_witness :
    validatePathForDeletion "/" "/home/u" "//" = .error .outsideHome :=
  (validate_invalidPath_characterization "/" "/home/u" "//").2
    (by decide) (by decide) (by decide) (by decide)

theorem append_ne_self (home s : String) (hs : s.data ≠ []) : home ++ s ≠ home := by
  intro he
  have h' : home.data ++ s.data = home.data ++ [] := by
    rw [← String.data_append, he]
    simp
  exact hs (List.append_cancel_left h')

theorem jsStartsWith_append (home s : String) : jsStartsWith (home ++ s) home = true := by
  simp only [jsStartsWith, String.data_append]
  exact listIsPrefix_self_append home.data s.data

theorem protectedPaths_filter (home : String) :
    (getProtectedPaths home).filter (fun q => q ≠ home)
      = [home ++ "/Desktop", home ++ "/Documents", home ++ "/Downloads",
         home ++ "/.ssh", home ++ "/Library"] := by
  have h : ∀ s : String, s.data ≠ [] → home ++ s ≠ home := append_ne_self home
  simp only [getProtectedPaths, List.filter_cons, List.filter_nil, decide_eq_true_eq]
  rw [if_neg (fun hx => hx rfl),
      if_pos (h "/Desktop" (by decide)), if_pos (h "/Documents" (by decide)),
      if_pos (h "/Downloads" (by decide)), if_pos (h "/.ssh" (by decide)),
      if_pos (h "/Library" (by decide))]

theorem validate_protected_of_resolved (cwd home p s : String)
    (hc : ¬ (p = "" ∨ p = "/")) (hsne : s.data ≠ [])
    (hres : pathResolve cwd p = home ++ s)
    (hmem : (home ++ s) ∈ (getProtectedPaths home).filter (fun q => q ≠ home)) :
    validatePathForDeletion cwd home p = .error (.protectedDir p) := by
  rw [validate_eq, if_neg hc, hres,
    if_neg (fun hx => hx.elim (fun h' => h' (jsStartsWith_append home s))
      (append_ne_self home s hsne)),
    if_pos (List.any_eq_true.mpr ⟨home ++ s, hmem, by simp⟩)]

/-- Claim C3: `validatePathForDeletion` fails with the protected-directory
kind exactly when the resolved path equals one of the five protected
directories directly under home (Desktop, Documents, Downloads, .ssh,
Library), and any path resolving strictly inside a protected directory
(below its component boundary) passes validation. -/
theorem validate_protected_characterization (cwd home p : String)
    (h₁ : p ≠ "") (h₂ : p ≠ "/") :
    (validatePathForDeletion cwd home p = .error (.protectedDir p)
      ↔ pathResolve cwd p ∈
          [home ++ "/Desktop", home ++ "/Documents", home ++ "/Downloads",
           home ++ "/.ssh", home ++ "/Library"])
    ∧ (∀ d, d ∈ (["Desktop", "Documents", "Downloads", ".ssh", "Library"] : List String) →
        jsStartsWith (pathResolve cwd p) (home ++ "/" ++ d ++ "/") = true →
        validatePathForDeletion cwd home p = .ok ()) := by
  have hc : ¬ (p = "" ∨ p = "/") := by tauto
  constructor
  · constructor
    · intro h
      rw [validate_eq, if_neg hc] at h
      by_cases hb : ¬ jsStartsWith (pathResolve cwd p) home = true ∨ pathResolve cwd p = home
      · rw [if_pos hb] at h
        exact absurd h (by simp)
      · rw [if_neg hb] at h
        by_cases ha : ((getProtectedPaths home).filter (fun q => q ≠ home)).any
            (fun q => q = pathResolve cwd p) = true
        · rw [protectedPaths_filter] at ha
          obtain ⟨q, hq, hqe⟩ := List.any_eq_true.mp ha
          have hqr : q = pathResolve cwd p := by simpa using hqe
          rw [← hqr]
          exact hq
        · rw [if_neg ha] at h
          exact absurd h (by simp)
    · intro hmem
      have hcases : pathResolve cwd p = home ++ "/Desktop"
          ∨ pathResolve cwd p = home ++ "/Documents"
          ∨ pathResolve cwd p = home ++ "/Downloads"
          ∨ pathResolve cwd p = home ++ "/.ssh"
          ∨ pathResolve cwd p = home ++ "/Library" := by simpa using hmem
      rcases hcases with hres | hres | hres | hres | hres
      · exact validate_protected_of_resolved cwd home p "/Desktop" hc (by decide) hres
          (by rw [protectedPaths_filter]; simp)
      · exact validate_protected_of_resolved cwd home p "/Documents" hc (by decide) hres
          (by rw [protectedPaths_filter]; simp)
      · exact validate_protected_of_resolved cwd home p "/Downloads" hc (by decide) hres
          (by rw [protectedPaths_filter]; simp)
      · exact validate_protected_of_resolved cwd home p "/.ssh" hc (by decide) hres
          (by rw [protectedPaths_filter]; simp)
      · exact validate_protected_of_resolved cwd home p "/Library" hc (by decide) hres
          (by rw [protectedPaths_filter]; simp)
  · intro d hd hpre
    obtain ⟨t, ht⟩ := (listIsPrefix_iff_append _ _).mp (by simpa [jsStartsWith] using hpre)
    have ht' : (pathResolve cwd p).data
        = home.data ++ ((('/' :: d.data) ++ ['/']) ++ t) := by
      rw [ht]
      simp
    have hsw : jsStartsWith (pathResolve cwd p) home = true := by
      simp only [jsStartsWith, ht']
      exact listIsPrefix_self_append home.data _
    have hner : pathResolve cwd p ≠ home := by
      intro he
      have h' : home.data ++ ((('/' :: d.data) ++ ['/']) ++ t) = home.data ++ [] := by
        rw [← ht', he]
        simp
      have := List.append_cancel_left h'
      simp at this
    have hcancel : ∀ s : String, home ++ s = pathResolve cwd p →
        s.data = (('/' :: d.data) ++ ['/']) ++ t := by
      intro s he
      have h' := congrArg String.data he
      rw [String.data_append, ht'] at h'
      exact List.append_cancel_left h'
    have hnot : ∀ q ∈ [home ++ "/Desktop", home ++ "/Documents", home ++ "/Downloads",
        home ++ "/.ssh", home ++ "/Library"], ¬ q = pathResolve cwd p := by
      intro q hq he
      have hqc : q = home ++ "/Desktop" ∨ q = home ++ "/Documents"
          ∨ q = home ++ "/Downloads" ∨ q = home ++ "/.ssh"
          ∨ q = home ++ "/Library" := by simpa using hq
      have hdc : d = "Desktop" ∨ d = "Documents" ∨ d = "Downloads"
          ∨ d = ".ssh" ∨ d = "Library" := by simpa using hd
      rcases hqc with rfl | rfl | rfl | rfl | rfl <;>
        rcases hdc with rfl | rfl | rfl | rfl | rfl <;>
        exact absurd (hcancel _ he) (ne_append_of_not_listIsPrefix _ _ (by decide) t)
    have hanyf : ¬ (([home ++ "/Desktop", home ++ "/Documents", home ++ "/Downloads",
        home ++ "/.ssh", home ++ "/Library"].any
          (fun q => q = pathResolve cwd p)) = true) := by
      intro hany
      obtain ⟨q, hq, hqe⟩ := List.any_eq_true.mp hany
      exact hnot q hq (by simpa using hqe)
    rw [validate_eq, if_neg hc,
      if_neg (fun hx => hx.elim (fun h' => h' hsw) hner),
      protectedPaths_filter, if_neg hanyf]

/-- Witness for `validate_protected_characterization`: the protected root
`~/Desktop` is rejected with the protected-directory kind, and a path nested
inside `~/Desktop` passes. -/
theorem validate_protected_characterization_witness :
    validatePathForDeletion "/" "/home/u" "/home/u/Desktop"
      = .error (.protectedDir "/home/u/Desktop")
    ∧ validatePathForDeletion "/" "/home/u" "/home/u/Desktop/work/proj/node_modules"
      = .ok () :=
  ⟨(validate_protected_characterization "/" "/home/u" "/home/u/Desktop"
      (by decide) (by decide)).1.mpr (by decide),
   (validate_protected_characterization "/" "/home/u" "/home/u/Desktop/work/proj/node_modules"
      (by decide) (by decide)).2 "Desktop" (by decide) (by decide)⟩

theorem splitSlashAux_append_slash (u : List Char) :
    ∀ (acc v : List Char),
      splitSlashAux (u ++ '/' :: v) acc = splitSlashAux u acc ++ splitSlashAux v [] := by
  induction u with
  | nil =>
    intro acc v
    simp [splitSlashAux]
  | cons c cs ih =>
    intro acc v
    by_cases hc : c = '/'
    · subst hc
      simp [splitSlashAux, ih]
    · simp [splitSlashAux, hc, ih]

theorem splitSlashAux_no_slash (l : List Char) :
    ∀ acc, (∀ c ∈ l, c ≠ '/') → splitSlashAux l acc = [⟨acc.reverse ++ l⟩] := by
  induction l with
  | nil =>
    intro acc _
    simp [splitSlashAux]
  | cons c cs ih =>
    intro acc h
    have hc : ¬ c = '/' := h c (by simp)
    simp only [splitSlashAux, if_neg hc]
    rw [ih (c :: acc) (fun x hx => h x (by simp [hx]))]
    simp

theorem exists_last_slash (l : List Char) (h : '/' ∈ l) :
    ∃ u v, l = u ++ '/' :: v ∧ ∀ c ∈ v, c ≠ '/' := by
  induction l with
  | nil => simp at h
  | cons c cs ih =>
    by_cases hcs : '/' ∈ cs
    · obtain ⟨u, v, rfl, hv⟩ := ih hcs
      exact ⟨c :: u, v, rfl, hv⟩
    · have hc : c = '/' := by
        rcases List.mem_cons.mp h with h' | h'
        · exact h'.symm
        · exact absurd h' hcs
      exact ⟨[], cs, by simp [hc], fun x hx hx' => hcs (hx' ▸ hx)⟩

theorem jsBasename_concat (u v : List Char) (hv : ∀ c ∈ v, c ≠ '/') :
    jsBasename ⟨u ++ '/' :: v⟩ = ⟨v⟩ := by
  unfold jsBasename
  have h1 : (String.mk (u ++ '/' :: v)).data.reverse = v.reverse ++ '/' :: u.reverse := by
    show (u ++ '/' :: v).reverse = v.reverse ++ '/' :: u.reverse
    simp
  rw [h1, takeWhile_append_all _ _
    (fun c hc => by simpa using hv c (List.mem_reverse.mp hc))]
  simp [List.takeWhile_cons]

theorem jsDirname_concat (u v : List Char) (hu : u ≠ []) (hv : ∀ c ∈ v, c ≠ '/') :
    jsDirname ⟨u ++ '/' :: v⟩ = ⟨u⟩ := by
  unfold jsDirname
  have h2 : (String.mk (u ++ '/' :: v)).data.reverse.dropWhile (· ≠ '/')
      = '/' :: u.reverse := by
    show ((u ++ '/' :: v).reverse).dropWhile (· ≠ '/') = '/' :: u.reverse
    rw [show (u ++ '/' :: v).reverse = v.reverse ++ '/' :: u.reverse by simp,
      dropWhile_append_all _ _
        (fun c hc => by simpa using hv c (List.mem_reverse.mp hc))]
    simp [List.dropWhile_cons]
  rw [h2]
  cases hur : u.reverse with
  | nil => exact absurd (by simpa using congrArg List.reverse hur) hu
  | cons a as =>
    show String.mk (a :: as).reverse = String.mk u
    rw [← hur]
    simp

theorem basename_mem_splitSlash (s : String) : jsBasename s ∈ jsSplitSlash s := by
  by_cases h : '/' ∈ s.data
  · obtain ⟨u, v, huv, hv⟩ := exists_last_slash s.data h
    have hs : s = ⟨u ++ '/' :: v⟩ := String.ext_iff.mpr huv
    rw [hs, jsBasename_concat u v hv]
    show String.mk v ∈ splitSlashAux (u ++ '/' :: v) []
    rw [splitSlashAux_append_slash u [] v, splitSlashAux_no_slash v [] hv]
    simp
  · have hb : jsBasename s = s := by
      unfold jsBasename
      rw [List.takeWhile_eq_self_iff.mpr
        (fun c hc => by
          simpa using fun h' => h (by rw [← h']; exact List.mem_reverse.mp hc))]
      simp [string_eta]
    rw [hb]
    show s ∈ splitSlashAux s.data []
    rw [splitSlashAux_no_slash s.data [] (fun c hc h' => h (h' ▸ hc))]
    simp [string_eta]

theorem walkFound_dir_eq (target : String) (ig sk : List String) (fuel : Nat)
    (entries : List (String × FSNode)) (cur : String) :
    walkFound target ig sk (fuel + 1) (.dir entries) cur =
      if ig.any (fun ignore => jsBasename cur = ignore || jsEndsWith cur ignore) then []
      else if sk.contains (jsBasename cur) then
        (if jsBasename cur = target then [cur] else [])
      else
        (if jsBasename cur = target then [cur] else [])
          ++ entries.flatMap
            (fun e => walkFound target ig sk fuel e.2 (cur ++ "/" ++ e.1)) := rfl

theorem walkFound_basename (target : String) (ignoreDirs skipInto : List String) :
    ∀ (fuel : Nat) (node : FSNode) (currentPath r : String),
      r ∈ walkFound target ignoreDirs skipInto fuel node currentPath →
      jsBasename r = target := by
  intro fuel
  induction fuel with
  | zero =>
    intro node cur r hr
    simp [walkFound] at hr
  | succ fuel ih =>
    intro node cur r hr
    cases node with
    | file sz => simp [walkFound] at hr
    | symlink => simp [walkFound] at hr
    | dir entries =>
      rw [walkFound_dir_eq] at hr
      have hself : ∀ r', r' ∈ (if jsBasename cur = target then [cur] else []) →
          jsBasename r' = target := by
        intro r' hr'
        by_cases hbt : jsBasename cur = target
        · rw [if_pos hbt] at hr'
          have hrc : r' = cur := by simpa using hr'
          rw [hrc]
          exact hbt
        · rw [if_neg hbt] at hr'
          simp at hr'
      by_cases hig : (ignoreDirs.any fun ignore =>
          jsBasename cur = ignore || jsEndsWith cur ignore) = true
      · rw [if_pos hig] at hr
        simp at hr
      · rw [if_neg hig] at hr
        by_cases hsk : skipInto.contains (jsBasename cur) = true
        · rw [if_pos hsk] at hr
          exact hself r hr
        · rw [if_neg hsk] at hr
          rcases List.mem_append.mp hr with h1 | hrec
          · exact hself r h1
          · obtain ⟨e, _, hr'⟩ := List.mem_flatMap.mp hrec
            exact ih e.2 _ r hr'

/-- Claim C8: a `node_modules` match found strictly inside another
`node_modules` match never appears among `NodeModulesScanner.scan`'s items
(for any tree), and on the canonical nested tree
`~/proj/node_modules/pkg/node_modules` the scan returns exactly one item,
the outermost `~/proj/node_modules`. -/
theorem nodeModules_nesting_exclusion :
    (∀ (tree : FSNode) (basePath m r : String),
      m ∈ walkFound "node_modules" IGNORE_DIRS ["node_modules"]
            (MAX_SCAN_DEPTH + 1) tree basePath →
      r ∈ nodeModulesScanPaths tree basePath →
      jsStartsWith r (m ++ "/") = false)
    ∧ nodeModulesScanPaths nestedNodeModulesTree "/home/u"
        = ["/home/u/proj/node_modules"] := by
  constructor
  · intro tree basePath m r hm hr
    by_contra hb
    have hpre : jsStartsWith r (m ++ "/") = true := by
      revert hb
      cases jsStartsWith r (m ++ "/") <;> simp
    have hbm : jsBasename m = "node_modules" :=
      walkFound_basename "node_modules" IGNORE_DIRS ["node_modules"]
        (MAX_SCAN_DEPTH + 1) tree basePath m hm
    have hm0 : m.data ≠ [] := by
      intro h0
      have hms : m = "" := String.ext_iff.mpr (by simpa using h0)
      rw [hms] at hbm
      exact absurd hbm (by decide)
    have hfil : ¬ ("node_modules" ∈ jsSplitSlash (jsDirname r)) := by
      have h2 := (List.mem_filter.mp hr).2
      simp only [decide_eq_true_eq] at h2
      intro hmem2
      exact h2 (List.elem_iff.mpr hmem2)
    apply hfil
    obtain ⟨t, ht⟩ := (listIsPrefix_iff_append _ _).mp
      (by simpa [jsStartsWith, String.data_append] using hpre)
    have ht' : r.data = m.data ++ '/' :: t := by
      rw [ht]
      simp
    by_cases hts : '/' ∈ t
    · obtain ⟨t₁, t₂, rfl, ht₂⟩ := exists_last_slash t hts
      have hre : r = ⟨(m.data ++ '/' :: t₁) ++ '/' :: t₂⟩ := by
        rw [String.ext_iff, ht']
        simp
      rw [hre, jsDirname_concat (m.data ++ '/' :: t₁) t₂ (by simp) ht₂]
      show "node_modules" ∈ splitSlashAux (m.data ++ '/' :: t₁) []
      rw [splitSlashAux_append_slash m.data [] t₁]
      refine List.mem_append.mpr (Or.inl ?_)
      rw [← hbm]
      exact basename_mem_splitSlash m
    · have hre : r = ⟨m.data ++ '/' :: t⟩ := by
        rw [String.ext_iff, ht']
      rw [hre, jsDirname_concat m.data t hm0 (fun c hc h' => hts (h' ▸ hc))]
      rw [string_eta, ← hbm]
      exact basename_mem_splitSlash m
  · decide

/-- Witness for `nodeModules_nesting_exclusion`: its universal part applied
to the canonical nested tree, with the membership hypotheses discharged by
evaluation. -/
theorem nodeModules_nesting_exclusion_witness :
    jsStartsWith "/home/u/proj/node_modules"
      ("/home/u/proj/node_modules" ++ "/") = false :=
  nodeModules_nesting_exclusion.1 nestedNodeModulesTree "/home/u"
    "/home/u/proj/node_modules" "/home/u/proj/node_modules"
    (by decide) (by decide)

end DClean
